import Mathlib

/-!
# Verification of the concurrent FIFO queue in `queue.go` (package razutils)

A shallow embedding of the queue's sequential data behaviour, of its
lock-acquisition traces, and of the critical-section interleaving of the
unique-insert path, together with proofs and refutations of the spec's claims.

The Go struct `Queue` holds `data []interface{}`, `length int`,
`totalPushed int` and a `sync.Mutex`.  The element slot is modelled by a type
parameter `α`; Go's `==` on comparable values is modelled by `DecidableEq α`.
The mutex does not affect the single-thread data semantics, so the operation
bodies below are the code between `Lock` and `Unlock`; the locking structure
itself is modelled separately by the lock-event traces further down.
-/

set_option autoImplicit false
set_option linter.unusedVariables false
set_option linter.unusedSectionVars false

namespace Razutils

variable {α : Type} [DecidableEq α]

/-- The Go `Queue` struct: `data []interface{}`, `length int`, `totalPushed int`
(the mutex carries no data). Go `int` is modelled by `Int`. -/
structure Queue (α : Type) where
  data : List α
  length : Int
  totalPushed : Int
deriving DecidableEq, Repr

/-- Go `MakeQueue(initSize int)`: both branches of the Go code produce an empty
queue with `length = 0` and `totalPushed = 0`; `initSize` only chooses the
initial slice capacity, which has no functional effect. -/
def MakeQueue (initSize : Int) : Queue α :=
  { data := [], length := 0, totalPushed := 0 }

/-- Go `TotalIn()`: returns `q.totalPushed`. -/
def TotalIn (q : Queue α) : Int :=
  q.totalPushed

/-- Go `Len()`: returns `q.length`. -/
def Len (q : Queue α) : Int :=
  q.length

/-- Go `IsEmpty()`: returns `q.length == 0`. -/
def IsEmpty (q : Queue α) : Bool :=
  q.length == 0

/-- Result of the two front-access operations `Top` and `Pop`, which in Go
return `(interface{}, error)`: `ok item next` is `(item, nil)` with post-state
`next`, `emptyErr next` is `(nil, errors.New("queue empty"))` with post-state
`next`, and `panic` marks the slice index `q.data[0]` going out of range
(possible only when `length` and `len(data)` disagree). -/
inductive FrontResult (α : Type) where
  | ok (item : α) (next : Queue α)
  | emptyErr (next : Queue α)
  | panic
deriving DecidableEq, Repr

/-- Go `Top()`: if `q.length == 0` return `(nil, error)`; otherwise return
`q.data[0]` without removing it. -/
def Top (q : Queue α) : FrontResult α :=
  if q.length = 0 then .emptyErr q
  else
    match q.data with
    | [] => .panic
    | item :: _ => .ok item q

/-- Go `Pop()`: if `q.length == 0` return `(nil, error)`; otherwise return
`q.data[0]`, set `q.data = q.data[1:]` and `q.length -= 1`. -/
def Pop (q : Queue α) : FrontResult α :=
  if q.length = 0 then .emptyErr q
  else
    match q.data with
    | [] => .panic
    | item :: rest =>
        .ok item { data := rest, length := q.length - 1, totalPushed := q.totalPushed }

/-- Go `Push(dt)`: `q.data = append(q.data, dt); q.length += 1; q.totalPushed += 1`. -/
def Push (q : Queue α) (dt : α) : Queue α :=
  { data := q.data ++ [dt], length := q.length + 1, totalPushed := q.totalPushed + 1 }

/-- Go `slices.IndexFunc` with a running index: first position at which the
predicate holds, `-1` if none. -/
def indexFuncFrom (p : α → Bool) : List α → Int → Int
  | [], _ => -1
  | x :: xs, i => if p x then i else indexFuncFrom p xs (i + 1)

/-- Go `slices.IndexFunc(l, p)`: index of the first element satisfying `p`,
or `-1` when there is none. -/
def indexFunc (l : List α) (p : α → Bool) : Int :=
  indexFuncFrom p l 0

/-- Go `InQueue(s)`: return `false` when the length is zero, otherwise
`slices.IndexFunc(q.data, func(c) { return c == s }) != -1`.
(The Go body reads the length by calling `Len()` again while already holding
the mutex; that locking defect is modelled by `inQueueTrace` below, while this
definition captures the value the body computes.) -/
def InQueue (q : Queue α) (s : α) : Bool :=
  if Len q = 0 then false
  else indexFunc q.data (fun c => c == s) != -1

/-- Go `PushUnique(dt)`: if `!q.InQueue(dt)`, append `dt` and increment `length`
and `totalPushed`; otherwise do nothing. -/
def PushUnique (q : Queue α) (dt : α) : Queue α :=
  if !InQueue q dt then
    { data := q.data ++ [dt], length := q.length + 1, totalPushed := q.totalPushed + 1 }
  else q

/-- Go `PushMany(dt, unique)`: empty input is a no-op; with `unique = false` the
whole slice is appended and `q.length += len(dt)` — the Go code does NOT touch
`totalPushed` on this branch; with `unique = true` the code runs
`q.PushUnique(d)` for each `d` in order. -/
def PushMany (q : Queue α) (dt : List α) (unique : Bool) : Queue α :=
  if dt.length > 0 then
    if !unique then
      { data := q.data ++ dt, length := q.length + (dt.length : Int), totalPushed := q.totalPushed }
    else dt.foldl (fun acc d => PushUnique acc d) q
  else q

/-! ## Operation sequences and reachable states -/

/-- One public mutating call on the queue. -/
inductive Op (α : Type) where
  | push (v : α)
  | pushUnique (v : α)
  | pushMany (vs : List α) (unique : Bool)
  | pop
deriving DecidableEq, Repr

/-- Post-state of a `Pop` call: on success the shrunk queue, on the
empty-queue error the unchanged queue. The `panic` fallback keeps the state;
it is unreachable from length-consistent states (see `lengthInv_applyOp`). -/
def popState (q : Queue α) : Queue α :=
  match Pop q with
  | .ok _ next => next
  | .emptyErr next => next
  | .panic => q

/-- Apply one public call to the queue state. -/
def applyOp (q : Queue α) : Op α → Queue α
  | .push v => Push q v
  | .pushUnique v => PushUnique q v
  | .pushMany vs unique => PushMany q vs unique
  | .pop => popState q

/-- The state after running a sequence of public calls. -/
def runOps (q : Queue α) (ops : List (Op α)) : Queue α :=
  ops.foldl applyOp q

/-- The bookkeeping invariant `count == len(elements)`: the cached `length`
field equals the length of the backing slice. -/
def lengthInv (q : Queue α) : Prop :=
  q.length = (q.data.length : Int)

instance (q : Queue α) : Decidable (lengthInv q) := by
  unfold lengthInv; infer_instance

/-! ## Lock-event traces

One `sync.Mutex` guards the queue.  For each public operation the list of
`Lock`/`Unlock` calls its body performs, read directly off the source, is
recorded as a trace; a branch-dependent body yields a trace parameterised by
the branch taken.  `sync.Mutex` is not reentrant, so a correct operation
acquires only while not holding and releases before returning. -/

inductive LockEvent where
  | acquire
  | release
deriving DecidableEq, Repr

/-- A trace respects the single non-reentrant mutex, starting and ending not
holding it: `acquire` only when free, `release` only when held. -/
def lockOkFrom : List LockEvent → Bool → Bool
  | [], held => !held
  | .acquire :: rest, held => !held && lockOkFrom rest true
  | .release :: rest, held => held && lockOkFrom rest false

def wellLocked (tr : List LockEvent) : Bool :=
  lockOkFrom tr false

/-- Trace of `TotalIn`: `Lock; read; Unlock`. -/
def totalInTrace : List LockEvent := [.acquire, .release]

/-- Trace of `Len`: `Lock; read; Unlock`. -/
def lenTrace : List LockEvent := [.acquire, .release]

/-- Trace of `IsEmpty`: `Lock; read; Unlock`. -/
def isEmptyTrace : List LockEvent := [.acquire, .release]

/-- Trace of `Top`: both the empty-error path and the success path are
`Lock; ...; Unlock; return`. -/
def topTrace (empty : Bool) : List LockEvent :=
  if empty then [.acquire, .release] else [.acquire, .release]

/-- Trace of `Pop`: both paths are `Lock; ...; Unlock; return`. -/
def popTrace (empty : Bool) : List LockEvent :=
  if empty then [.acquire, .release] else [.acquire, .release]

/-- Trace of `Push`: `Lock; append; Unlock`. -/
def pushTrace : List LockEvent := [.acquire, .release]

/-- Trace of `InQueue`: the body does `q.mu.Lock()`, then calls `q.Len()` — which
acquires and releases the same mutex again — and then either returns `false`
directly (empty branch: no `Unlock` before `return`) or scans and does
`q.mu.Unlock()`. -/
def inQueueTrace (empty : Bool) : List LockEvent :=
  LockEvent.acquire :: (lenTrace ++ (if empty then [] else [LockEvent.release]))

/-- Trace of `PushUnique`: an `InQueue` call, then — when the value was absent — a
second, separate `Lock; append; Unlock` critical section. -/
def pushUniqueTrace (empty found : Bool) : List LockEvent :=
  inQueueTrace empty ++ (if found then [] else pushTrace)

/-! ## Interleaving model of the unique-insert path

`PushUnique` runs its membership check and its append as two separate
critical sections on the queue's mutex.  For the atomicity claim the
execution of one `PushUnique(v)` call is therefore two atomic steps: the
membership check (one critical section, modelled by the value `InQueue`
computes), then — if the value was seen absent — the unconditional append
(the second critical section).  Two threads interleave these steps in any
order; a schedule lists which thread takes the next step. -/

/-- A thread running `PushUnique v`: `pc = 0` before the membership check,
`pc = 1` after it with the result stored in `found`, `pc = 2` done. -/
structure PUThread (α : Type) where
  v : α
  pc : Nat
  found : Bool
deriving DecidableEq, Repr

/-- One atomic step of a `PushUnique` thread against the shared queue. -/
def puStep (q : Queue α) (t : PUThread α) : Queue α × PUThread α :=
  match t.pc with
  | 0 => (q, { t with pc := 1, found := InQueue q t.v })
  | 1 =>
      if t.found then (q, { t with pc := 2 })
      else (Push q t.v, { t with pc := 2 })
  | _ => (q, t)

/-- Run two `PushUnique` threads under a schedule: `true` steps the first
thread, `false` the second. -/
def runPU (q : Queue α) (t1 t2 : PUThread α) : List Bool → Queue α × PUThread α × PUThread α
  | [] => (q, t1, t2)
  | b :: rest =>
      if b then
        let s := puStep q t1
        runPU s.1 s.2 t2 rest
      else
        let s := puStep q t2
        runPU s.1 t1 s.2 rest

/-! ## Derived execution helpers used to state the FIFO and batch claims -/

/-- Push a whole list one `Push` call at a time, in order. -/
def pushAll (q : Queue α) (vs : List α) : Queue α :=
  vs.foldl Push q

/-- Call `Pop` `n` times, recording `some item` for each successful call and
`none` for each empty-queue error, together with the final state.  The
`panic` outcome — unreachable from length-consistent states — is recorded as
all remaining calls failing. -/
def popN (q : Queue α) : Nat → List (Option α) × Queue α
  | 0 => ([], q)
  | n + 1 =>
      match Pop q with
      | .ok item next =>
          let r := popN next n
          (some item :: r.1, r.2)
      | .emptyErr next =>
          let r := popN next n
          (none :: r.1, r.2)
      | .panic => (List.replicate (n + 1) none, q)

/-- The sublist of `vs` that incremental duplicate suppression keeps when the
elements of `seen` are already present: each value is kept exactly when it is
neither in `seen` nor an earlier kept value.  This is the spec's description
of `InsertManyOrdered(values, uniqueOnly=true)`. -/
def uniqueFilter (seen : List α) : List α → List α
  | [] => []
  | v :: vs =>
      if v ∈ seen then uniqueFilter seen vs
      else v :: uniqueFilter (seen ++ [v]) vs

/-- A sample length-consistent one-element queue. -/
def sampleQ6 : Queue Nat := { data := [5], length := 1, totalPushed := 3 }

/-- A sample length-consistent two-element queue. -/
def sampleQ7 : Queue Nat := { data := [4, 6], length := 2, totalPushed := 5 }

/-- A sample length-consistent queue for batch insertion. -/
def sampleQ8 : Queue Nat := { data := [2], length := 1, totalPushed := 4 }

/-- A sample empty queue with a nonzero insertion counter. -/
def sampleQ10 : Queue Nat := { data := [], length := 0, totalPushed := 2 }

/-! ## Supporting lemmas -/

theorem lengthInv_MakeQueue (i : Int) : lengthInv (MakeQueue i : Queue α) := by
  simp [lengthInv, MakeQueue]

theorem lengthInv_Push {q : Queue α} (h : lengthInv q) (v : α) : lengthInv (Push q v) := by
  unfold lengthInv Push at *
  simp only [List.length_append, List.length_cons, List.length_nil]
  push_cast
  omega

theorem indexFuncFrom_eq_neg_one (p : α → Bool) :
    ∀ (l : List α) (i : Int), 0 ≤ i →
      (indexFuncFrom p l i = -1 ↔ ∀ x ∈ l, p x = false) := by
  intro l
  induction l with
  | nil => intro i hi; simp [indexFuncFrom]
  | cons x xs ih =>
      intro i hi
      by_cases hx : p x = true
      · simp [indexFuncFrom, hx]
        omega
      · have hx' : p x = false := by simpa using hx
        simp [indexFuncFrom, hx', ih (i + 1) (by omega)]

theorem InQueue_iff_mem {q : Queue α} (h : lengthInv q) (s : α) :
    InQueue q s = true ↔ s ∈ q.data := by
  unfold InQueue Len
  by_cases h0 : q.length = 0
  · have hd : q.data = [] := by
      unfold lengthInv at h
      cases hq : q.data with
      | nil => rfl
      | cons y ys => rw [hq] at h; simp at h; omega
    simp [h0, hd]
  · simp only [h0, if_false, indexFunc]
    rw [bne_iff_ne, ne_eq, indexFuncFrom_eq_neg_one (fun c => c == s) q.data 0 (by omega)]
    push_neg
    simp

theorem PushUnique_eq {q : Queue α} (h : lengthInv q) (v : α) :
    PushUnique q v = if v ∈ q.data then q else Push q v := by
  unfold PushUnique
  by_cases hm : v ∈ q.data
  · have hin : InQueue q v = true := (InQueue_iff_mem h v).mpr hm
    simp [hin, hm]
  · have hin : InQueue q v = false := by
      rw [← Bool.not_eq_true]
      exact fun hc => hm ((InQueue_iff_mem h v).mp hc)
    simp [hin, hm, Push]

theorem lengthInv_PushUnique {q : Queue α} (h : lengthInv q) (v : α) :
    lengthInv (PushUnique q v) := by
  rw [PushUnique_eq h v]
  by_cases hm : v ∈ q.data
  · simpa [hm] using h
  · simpa [hm] using lengthInv_Push h v

theorem lengthInv_foldl_PushUnique :
    ∀ (vs : List α) (q : Queue α), lengthInv q →
      lengthInv (vs.foldl (fun acc d => PushUnique acc d) q)
  | [], q, h => h
  | v :: vs, q, h => lengthInv_foldl_PushUnique vs _ (lengthInv_PushUnique h v)

theorem lengthInv_PushMany {q : Queue α} (h : lengthInv q) (vs : List α) (u : Bool) :
    lengthInv (PushMany q vs u) := by
  unfold PushMany
  by_cases hl : vs.length > 0
  · simp only [hl, if_true]
    cases u with
    | false =>
        simp only [Bool.not_false, if_true]
        unfold lengthInv at *
        simp only [List.length_append]
        push_cast
        omega
    | true =>
        simp only [Bool.not_true, if_false]
        exact lengthInv_foldl_PushUnique vs q h
  · simp only [hl, if_false]
    exact h

theorem lengthInv_popState {q : Queue α} (h : lengthInv q) : lengthInv (popState q) := by
  by_cases h0 : q.length = 0
  · have hp : Pop q = .emptyErr q := by unfold Pop; simp [h0]
    unfold popState
    rw [hp]
    exact h
  · obtain ⟨x, rest, hd⟩ : ∃ x rest, q.data = x :: rest := by
      cases hq : q.data with
      | nil => exfalso; unfold lengthInv at h; rw [hq] at h; simp at h; omega
      | cons y ys => exact ⟨y, ys, rfl⟩
    have hp : Pop q = .ok x ⟨rest, q.length - 1, q.totalPushed⟩ := by
      unfold Pop; simp [h0, hd]
    unfold popState
    rw [hp]
    unfold lengthInv at *
    rw [hd] at h
    simp only [List.length_cons] at h ⊢
    push_cast at h ⊢
    omega

theorem lengthInv_applyOp {q : Queue α} (h : lengthInv q) (op : Op α) :
    lengthInv (applyOp q op) := by
  cases op with
  | push v => exact lengthInv_Push h v
  | pushUnique v => exact lengthInv_PushUnique h v
  | pushMany vs u => exact lengthInv_PushMany h vs u
  | pop => exact lengthInv_popState h

theorem lengthInv_runOps :
    ∀ (ops : List (Op α)) (q : Queue α), lengthInv q → lengthInv (runOps q ops)
  | [], q, h => h
  | op :: ops, q, h => lengthInv_runOps ops _ (lengthInv_applyOp h op)

theorem pushAll_spec {β : Type} (vs : List β) :
    ∀ (q : Queue β),
      (pushAll q vs).data = q.data ++ vs ∧
      (pushAll q vs).length = q.length + (vs.length : Int) ∧
      (pushAll q vs).totalPushed = q.totalPushed + (vs.length : Int) := by
  induction vs with
  | nil => intro q; simp [pushAll]
  | cons v vs ih =>
      intro q
      have h := ih (Push q v)
      simp only [pushAll, List.foldl] at h ⊢
      refine ⟨?_, ?_, ?_⟩
      · rw [h.1]; simp [Push]
      · rw [h.2.1]; simp [Push]; ring
      · rw [h.2.2]; simp [Push]; ring

theorem popN_data {β : Type} (l : List β) :
    ∀ (q : Queue β), q.data = l → lengthInv q →
      (popN q l.length).1 = l.map some := by
  induction l with
  | nil => intro q hd h; simp [popN]
  | cons x xs ih =>
      intro q hd h
      have h0 : ¬ q.length = 0 := by
        unfold lengthInv at h; rw [hd] at h; simp at h; omega
      have hp : Pop q = .ok x ⟨xs, q.length - 1, q.totalPushed⟩ := by
        unfold Pop; simp [h0, hd]
      have hinv : lengthInv (⟨xs, q.length - 1, q.totalPushed⟩ : Queue β) := by
        unfold lengthInv at *; rw [hd] at h
        simp only [List.length_cons] at h ⊢; push_cast at h ⊢; omega
      simp only [List.length_cons, popN, hp]
      simp [ih ⟨xs, q.length - 1, q.totalPushed⟩ rfl hinv]

theorem foldl_PushUnique_data :
    ∀ (vs : List α) (q : Queue α), lengthInv q →
      (vs.foldl (fun acc d => PushUnique acc d) q).data = q.data ++ uniqueFilter q.data vs := by
  intro vs
  induction vs with
  | nil => intro q h; simp [uniqueFilter]
  | cons v vs ih =>
      intro q h
      by_cases hm : v ∈ q.data
      · have he : PushUnique q v = q := by rw [PushUnique_eq h v]; simp [hm]
        simp only [List.foldl, he, uniqueFilter, hm, if_true]
        exact ih q h
      · have he : PushUnique q v = Push q v := by rw [PushUnique_eq h v]; simp [hm]
        have hdata : (Push q v).data = q.data ++ [v] := rfl
        simp only [List.foldl, he, uniqueFilter, hm, if_false]
        rw [ih (Push q v) (lengthInv_Push h v), hdata]
        simp

theorem PushMany_unique_data {q : Queue α} (h : lengthInv q) (vs : List α) :
    (PushMany q vs true).data = q.data ++ uniqueFilter q.data vs := by
  unfold PushMany
  by_cases hl : vs.length > 0
  · simp only [hl, if_true, Bool.not_true, if_false]
    exact foldl_PushUnique_data vs q h
  · have : vs = [] := by
      cases vs with
      | nil => rfl
      | cons y ys => simp at hl
    simp [this, uniqueFilter]

/-- The single-critical-section operations of the queue respect the mutex
discipline: `TotalIn`, `Len`, `IsEmpty`, `Top`, `Pop` and `Push` each acquire
once and release before returning on every path. -/
theorem wellLocked_simple_traces :
    wellLocked totalInTrace = true ∧ wellLocked lenTrace = true ∧
    wellLocked isEmptyTrace = true ∧
    wellLocked (topTrace true) = true ∧ wellLocked (topTrace false) = true ∧
    wellLocked (popTrace true) = true ∧ wellLocked (popTrace false) = true ∧
    wellLocked pushTrace = true := by decide

/-! ## The claims -/

/-- C1: the claim says a non-unique `PushMany` of `vs` increases `TotalIn` by
`vs.length`.  The code's non-unique batch branch never touches `totalPushed`:
after `PushMany([7], false)` on a fresh queue one item was inserted
(`Len = 1`) yet `TotalIn` is still `0`, not `1` — the counter misses every
insertion of a non-unique batch. -/
theorem claim_C1 :
    Len (runOps (MakeQueue 0 : Queue Nat) [Op.pushMany [7] false]) = 1 ∧
    TotalIn (runOps (MakeQueue 0 : Queue Nat) [Op.pushMany [7] false]) = 0 := by
  decide

/-- C2: the claim says `TotalIn ≥ Len` for every queue reachable by public
operations.  Because the non-unique batch branch does not increment
`totalPushed`, the reachable state after `PushMany([5], false)` on a fresh
queue has `Len = 1 > 0 = TotalIn`, violating the invariant. -/
theorem claim_C2 :
    ¬ (Len (runOps (MakeQueue 0 : Queue Nat) [Op.pushMany [5] false]) ≤
        TotalIn (runOps (MakeQueue 0 : Queue Nat) [Op.pushMany [5] false])) := by
  decide

/-- C3: the claim says every public operation releases the mutex before
returning on every path and never invokes another lock-acquiring operation
while holding it.  `InQueue` violates both: its body locks the mutex and then
calls `Len()` — which acquires the same non-reentrant mutex again — and its
empty branch returns without unlocking; on both branches the lock-event trace
breaks the discipline. -/
theorem claim_C3 :
    wellLocked (inQueueTrace true) = false ∧
    wellLocked (inQueueTrace false) = false := by
  decide

/-- C4: the claim says the membership check and the append of `PushUnique`
are one atomic step, so two concurrent `PushUnique` calls with equal values
never both insert.  In the code they are two separate critical sections:
interleaving two `PushUnique 0` threads on an empty queue as
check₁, check₂, append₁, append₂ lets both checks see the value absent and
both threads append, ending with elements `[0, 0]` and both threads done. -/
theorem claim_C4 :
    (runPU (MakeQueue 0 : Queue Nat) ⟨0, 0, false⟩ ⟨0, 0, false⟩
        [true, false, true, false]).1.data = [0, 0] ∧
    (runPU (MakeQueue 0 : Queue Nat) ⟨0, 0, false⟩ ⟨0, 0, false⟩
        [true, false, true, false]).2.1.pc = 2 ∧
    (runPU (MakeQueue 0 : Queue Nat) ⟨0, 0, false⟩ ⟨0, 0, false⟩
        [true, false, true, false]).2.2.pc = 2 := by
  decide

/-- C5: pushing `v1..vn` in order with `Push` onto a freshly constructed
queue (any capacity hint) and then calling `Pop` `n` times returns exactly
`v1..vn` in that order, every `Pop` succeeding. -/
theorem claim_C5 {β : Type} (initSize : Int) (vs : List β) :
    (popN (pushAll (MakeQueue initSize) vs) vs.length).1 = vs.map some := by
  obtain ⟨hd, hl, -⟩ := pushAll_spec vs (MakeQueue initSize)
  have hd' : (pushAll (MakeQueue initSize : Queue β) vs).data = vs := by
    simpa [MakeQueue] using hd
  have hinv : lengthInv (pushAll (MakeQueue initSize : Queue β) vs) := by
    unfold lengthInv
    rw [hd', hl]
    simp [MakeQueue]
  exact popN_data vs _ hd' hinv

/-- C6: on a length-consistent queue, `Top` and `Pop` fail with the
empty-queue error exactly when the length is zero; on a non-empty queue both
return the front (oldest) element, `Top` leaves the state unchanged, `Pop`
removes the front and decrements `length` by one, and neither changes
`totalPushed`. -/
theorem claim_C6 (q : Queue α) (h : lengthInv q) :
    (q.length = 0 → Top q = .emptyErr q ∧ Pop q = .emptyErr q) ∧
    (q.length ≠ 0 →
      ∃ x rest, q.data = x :: rest ∧
        Top q = .ok x q ∧
        Pop q = .ok x { data := rest, length := q.length - 1,
                        totalPushed := q.totalPushed }) := by
  constructor
  · intro h0
    unfold Top Pop
    simp [h0]
  · intro h0
    obtain ⟨x, rest, hd⟩ : ∃ x rest, q.data = x :: rest := by
      cases hq : q.data with
      | nil => exfalso; unfold lengthInv at h; rw [hq] at h; simp at h; omega
      | cons y ys => exact ⟨y, ys, rfl⟩
    refine ⟨x, rest, hd, ?_, ?_⟩
    · unfold Top; simp [h0, hd]
    · unfold Pop; simp [h0, hd]

/-- Witness for C6 at the concrete queue `sampleQ6`. -/
theorem claim_C6_witness :
    lengthInv sampleQ6 ∧
    ((sampleQ6.length = 0 → Top sampleQ6 = .emptyErr sampleQ6 ∧
        Pop sampleQ6 = .emptyErr sampleQ6) ∧
     (sampleQ6.length ≠ 0 →
       ∃ x rest, sampleQ6.data = x :: rest ∧
         Top sampleQ6 = .ok x sampleQ6 ∧
         Pop sampleQ6 = .ok x { data := rest, length := sampleQ6.length - 1,
                                totalPushed := sampleQ6.totalPushed })) :=
  ⟨by decide, claim_C6 sampleQ6 (by decide)⟩

/-- C7: on a length-consistent queue, `PushUnique v` is the identity when an
element equal to `v` is already present, and otherwise coincides with
`Push v`: `v` is appended at the back and `length` and `totalPushed` are each
incremented by one. -/
theorem claim_C7 (q : Queue α) (h : lengthInv q) (v : α) :
    (v ∈ q.data → PushUnique q v = q) ∧
    (v ∉ q.data →
      PushUnique q v = Push q v ∧
      (PushUnique q v).data = q.data ++ [v] ∧
      (PushUnique q v).length = q.length + 1 ∧
      (PushUnique q v).totalPushed = q.totalPushed + 1) := by
  constructor
  · intro hm
    rw [PushUnique_eq h v]
    simp [hm]
  · intro hm
    rw [PushUnique_eq h v]
    simp [hm, Push]

/-- Witness for C7 at `sampleQ7` and the absent value `9`. -/
theorem claim_C7_witness :
    lengthInv sampleQ7 ∧
    ((9 ∈ sampleQ7.data → PushUnique sampleQ7 9 = sampleQ7) ∧
     (9 ∉ sampleQ7.data →
       PushUnique sampleQ7 9 = Push sampleQ7 9 ∧
       (PushUnique sampleQ7 9).data = sampleQ7.data ++ [9] ∧
       (PushUnique sampleQ7 9).length = sampleQ7.length + 1 ∧
       (PushUnique sampleQ7 9).totalPushed = sampleQ7.totalPushed + 1)) :=
  ⟨by decide, claim_C7 sampleQ7 (by decide) 9⟩

/-- C8: the unique batch insert applies the duplicate-suppression rule to
each input value against the queue's state at the moment that value is
considered — the kept values are exactly those neither already present nor
equal to an earlier kept value — and in particular `PushMany [a, a, b] true`
on a fresh queue with `a ≠ b` leaves elements `[a, b]` and length `2`. -/
theorem claim_C8 (q : Queue α) (h : lengthInv q) (vs : List α) (a b : α)
    (hab : a ≠ b) :
    (PushMany q vs true).data = q.data ++ uniqueFilter q.data vs ∧
    (PushMany (MakeQueue 0 : Queue α) [a, a, b] true).data = [a, b] ∧
    Len (PushMany (MakeQueue 0 : Queue α) [a, a, b] true) = 2 := by
  have hdata : (PushMany (MakeQueue 0 : Queue α) [a, a, b] true).data = [a, b] := by
    rw [PushMany_unique_data (lengthInv_MakeQueue 0) [a, a, b]]
    simp [MakeQueue, uniqueFilter, Ne.symm hab]
  refine ⟨PushMany_unique_data h vs, hdata, ?_⟩
  have hinv := lengthInv_PushMany (lengthInv_MakeQueue 0) [a, a, b] true
  unfold lengthInv at hinv
  rw [hdata] at hinv
  simpa [Len] using hinv

/-- Witness for C8 at `sampleQ8`, batch `[3, 3]`, and `a = 0`, `b = 1`. -/
theorem claim_C8_witness :
    lengthInv sampleQ8 ∧ (0 : Nat) ≠ 1 ∧
    ((PushMany sampleQ8 [3, 3] true).data =
        sampleQ8.data ++ uniqueFilter sampleQ8.data [3, 3] ∧
     (PushMany (MakeQueue 0 : Queue Nat) [0, 0, 1] true).data = [0, 1] ∧
     Len (PushMany (MakeQueue 0 : Queue Nat) [0, 0, 1] true) = 2) :=
  ⟨by decide, by decide, claim_C8 sampleQ8 (by decide) [3, 3] 0 1 (by decide)⟩

/-- C9: for every capacity hint and every sequence of public operations, the
reached state satisfies `count == len(elements)`; consequently `Len` reports
the true element count and `IsEmpty` the true emptiness. -/
theorem claim_C9 (initSize : Int) (ops : List (Op α)) :
    (runOps (MakeQueue initSize : Queue α) ops).length =
      ((runOps (MakeQueue initSize : Queue α) ops).data.length : Int) ∧
    Len (runOps (MakeQueue initSize : Queue α) ops) =
      ((runOps (MakeQueue initSize : Queue α) ops).data.length : Int) ∧
    (IsEmpty (runOps (MakeQueue initSize : Queue α) ops) = true ↔
      (runOps (MakeQueue initSize : Queue α) ops).data = []) := by
  have h := lengthInv_runOps ops (MakeQueue initSize : Queue α) (lengthInv_MakeQueue initSize)
  unfold lengthInv at h
  refine ⟨h, h, ?_⟩
  unfold IsEmpty
  rw [h]
  simp [List.length_eq_zero]

/-- C10: when `Top` or `Pop` is called with the length field zero, the call
fails with the empty-queue error, returns no element (the Go `nil`), and the
post-state is exactly the prior queue — no field is mutated. -/
theorem claim_C10 (q : Queue α) (h : q.length = 0) :
    Top q = .emptyErr q ∧ Pop q = .emptyErr q := by
  unfold Top Pop
  simp [h]

/-- Witness for C10 at the concrete empty queue `sampleQ10`. -/
theorem claim_C10_witness :
    sampleQ10.length = 0 ∧
    (Top sampleQ10 = .emptyErr sampleQ10 ∧ Pop sampleQ10 = .emptyErr sampleQ10) :=
  ⟨by decide, claim_C10 sampleQ10 (by decide)⟩

end Razutils
